import Mathlib

/-!
# Verification of the sparse chunked Game-of-Life engine

Shallow embedding of `src/script.js`: the `ChunkManager` sparse grid
(chunked cell storage over the infinite integer plane) and the
`GameOfLife` engine's `computeNextGen` step, together with proofs of the
specification's claims about them.

Modelling conventions, each justified against the JavaScript source:

* Chunk keys.  The source keys its `Map` by the string `"cx,cy"` and
  parses the key back with `split(',').map(Number)`.  On integer pairs
  this encoding is a bijection, so we key directly by the pair
  `(cx, cy) : Int × Int`.
* The `Map` itself.  A JavaScript `Map` is an insertion-ordered sequence
  of entries with unique keys; we model it as an association list:
  `Map.get` is `lookupChunk`, `Map.set` on a fresh key appends at the
  end (`getOrCreateChunk`), and mutating an existing chunk in place is
  `updateEntry` (replace the entry with the matching key).
* Chunk contents.  A chunk is a `Uint8Array(chunkSize * chunkSize)`; we
  model it as a total function `Nat → Nat` that is zero outside the
  written indices.  Writing to a `Uint8Array` stores the value modulo
  2^8, hence the explicit `% 256` in `setCell`.
* `Set`s of rule numbers (`bornRules`, `surviveRules`) are modelled as
  `List Nat` with list membership for `Set.has`.
* The `chunksToCheck` `Set` of `computeNextGen` is modelled as the
  deduplicated list of all stored keys and their 8 chunk-grid
  neighbours.  The iteration order of that set is irrelevant to every
  observable we prove about (each evaluated chunk writes only cells of
  its own chunk region, and distinct keys are distinct chunks).
* JavaScript `%` on numbers is truncating; `Math.floor(x / n)` on
  integers is flooring division.  These are `Int.tmod` and `Int.fdiv`.
-/

/-- One stored chunk: the dense `chunkSize × chunkSize` cell array,
as a function from flat index `ly * chunkSize + lx` to the cell state. -/
abbrev Chunk : Type := Nat → Nat

/-- `class ChunkManager`: the sparse grid.  `chunks` models the
insertion-ordered `Map` from chunk coordinate to chunk. -/
structure ChunkManager where
  chunkSize : Nat
  chunks : List ((Int × Int) × Chunk)

/-- `new ChunkManager(chunkSize)`: starts with an empty chunk map. -/
def ChunkManager.empty (cs : Nat) : ChunkManager := ⟨cs, []⟩

/-- `this.chunks.get(key)`: first (= unique) entry with the given key. -/
def lookupChunk : List ((Int × Int) × Chunk) → Int × Int → Option Chunk
  | [], _ => none
  | e :: rest, c => if e.1 = c then some e.2 else lookupChunk rest c

/-- In-place mutation of the chunk stored at key `c` (the JavaScript
side mutates the `Uint8Array` held in the `Map`): replace the entry
whose key is `c` by `(c, ch)`, leaving every other entry unchanged. -/
def updateEntry (l : List ((Int × Int) × Chunk)) (c : Int × Int) (ch : Chunk) :
    List ((Int × Int) × Chunk) :=
  l.map (fun e => if e.1 = c then (c, ch) else e)

/-- `Math.floor(x / this.chunkSize)`: flooring division. -/
def chunkCoord (cs : Nat) (x : Int) : Int := Int.fdiv x cs

/-- `((x % this.chunkSize) + this.chunkSize) % this.chunkSize` with
JavaScript's truncating `%` (`Int.tmod`); the result is in `[0, cs)`
for `cs > 0`, so we read it back as a `Nat` array index. -/
def localCoord (cs : Nat) (x : Int) : Nat :=
  ((Int.tmod x cs + cs).tmod cs).toNat

/-- `chunk[ly * this.chunkSize + lx]`: the flat index of a cell inside
its chunk. -/
def localIndex (cs : Nat) (x y : Int) : Nat :=
  localCoord cs y * cs + localCoord cs x

/-- `setCell(x, y, state)`: create the owning chunk on demand
(appending it to the map, as `Map.set` does for a fresh key), then
store `state` at the local offset.  The `Uint8Array` write truncates
the value to a byte, hence `% 256`. -/
def ChunkManager.setCell (m : ChunkManager) (x y : Int) (state : Nat) : ChunkManager :=
  match lookupChunk m.chunks (chunkCoord m.chunkSize x, chunkCoord m.chunkSize y) with
  | some ch =>
      ⟨m.chunkSize,
        updateEntry m.chunks (chunkCoord m.chunkSize x, chunkCoord m.chunkSize y)
          (fun i => if i = localIndex m.chunkSize x y then state % 256 else ch i)⟩
  | none =>
      ⟨m.chunkSize,
        m.chunks ++
          [((chunkCoord m.chunkSize x, chunkCoord m.chunkSize y),
            fun i => if i = localIndex m.chunkSize x y then state % 256 else 0)]⟩

/-- `getCell(x, y)`: `0` when the owning chunk is absent, otherwise the
stored state at the local offset. -/
def ChunkManager.getCell (m : ChunkManager) (x y : Int) : Nat :=
  match lookupChunk m.chunks (chunkCoord m.chunkSize x, chunkCoord m.chunkSize y) with
  | none => 0
  | some ch => ch (localIndex m.chunkSize x y)

/-- `getCell` in explicit state-passing form: the method body performs a
single primitive on the grid — the read `this.chunks.get(key)` — and no
write, so the grid component threads through unchanged. -/
def ChunkManager.getCellS (m : ChunkManager) (x y : Int) : Nat × ChunkManager :=
  match (lookupChunk m.chunks (chunkCoord m.chunkSize x, chunkCoord m.chunkSize y), m) with
  | (none, m') => (0, m')
  | (some ch, m') => (ch (localIndex m.chunkSize x y), m')

/-- The 9 chunk-grid offsets added around every stored chunk key, in the
source's loop order (`dy` outer from -1 to 1, `dx` inner from -1 to 1). -/
def chunkOffsets : List (Int × Int) :=
  [(-1, -1), (0, -1), (1, -1), (-1, 0), (0, 0), (1, 0), (-1, 1), (0, 1), (1, 1)]

/-- The key `(cx, cy)` and its 8 chunk-grid neighbours. -/
def neighborKeys (c : Int × Int) : List (Int × Int) :=
  chunkOffsets.map (fun d => (c.1 + d.1, c.2 + d.2))

/-- The `chunksToCheck` set: union over every stored chunk key of that
key and its 8 neighbours. -/
def chunksToCheck (m : ChunkManager) : List (Int × Int) :=
  ((m.chunks.map Prod.fst).flatMap neighborKeys).dedup

/-- The 8 cell-level Moore-neighbourhood offsets, in the source's loop
order (`dy` outer, `dx` inner, skipping `(0, 0)`). -/
def neighborOffsets : List (Int × Int) :=
  [(-1, -1), (0, -1), (1, -1), (-1, 0), (1, 0), (-1, 1), (0, 1), (1, 1)]

/-- The neighbour count of `(x, y)`: one per offset whose cell reads
truthy (nonzero) in the source grid. -/
def countNeighbors (m : ChunkManager) (x y : Int) : Nat :=
  neighborOffsets.countP (fun d => m.getCell (x + d.1) (y + d.2) != 0)

/-- The per-cell transition of `computeNextGen`: `nextState` starts 0;
a cell whose state is exactly `1` consults `surviveRules`, any other
state (the `else` branch, i.e. dead or a nonzero state other than 1)
consults `bornRules`. -/
def nextStateOf (m : ChunkManager) (born survive : List Nat) (x y : Int) : Nat :=
  let neighbors := countNeighbors m x y
  let state := m.getCell x y
  if state = 1 then
    if neighbors ∈ survive then 1 else 0
  else
    if neighbors ∈ born then 1 else 0

/-- The cells `(gx, gy)` of one chunk, in the source's loop order
(`ly` outer, `lx` inner): `gx = cx * chunkSize + lx`. -/
def chunkCells (cs : Nat) (c : Int × Int) : List (Int × Int) :=
  (List.range cs).flatMap fun (ly : Nat) =>
    (List.range cs).map fun (lx : Nat) => (c.1 * cs + (lx : Int), c.2 * cs + (ly : Int))

/-- All cells evaluated by one `computeNextGen` call: every cell of
every chunk in `chunksToCheck` (the two nested `for` loops over the
set and over the chunk's local cells). -/
def evalCells (cs : Nat) (m : ChunkManager) : List (Int × Int) :=
  (chunksToCheck m).flatMap (chunkCells cs)

/-- The body of the cell loop: when the computed `nextState` is truthy
the cell is written as `1` into the destination grid and the running
population counter is incremented; otherwise nothing happens. -/
def stepCell (src : ChunkManager) (born survive : List Nat)
    (acc : ChunkManager × Nat) (p : Int × Int) : ChunkManager × Nat :=
  if nextStateOf src born survive p.1 p.2 ≠ 0 then
    (acc.1.setCell p.1 p.2 1, acc.2 + 1)
  else acc

/-- The engine state of `class GameOfLife` restricted to the simulation
core: grid, rule sets, and the generation/population counters. -/
structure GameOfLife where
  chunkSize : Nat
  grid : ChunkManager
  bornRules : List Nat
  surviveRules : List Nat
  generation : Nat
  population : Nat

/-- A rule preset `{ b: [...], s: [...] }` from `rules.js`. -/
structure Rule where
  b : List Nat
  s : List Nat

/-- `applyRule(rule)`: clear both rule sets and re-add exactly the
members of `rule.b` and `rule.s` (the UI refresh `updateRuleUI` has no
effect on the core state). -/
def applyRule (e : GameOfLife) (r : Rule) : GameOfLife :=
  { e with bornRules := r.b, surviveRules := r.s }

/-- `computeNextGen()`: build the evaluation set, run the cell loop
into a fresh destination grid accumulating the new population, then
install the destination grid, increment the generation and set the
population. -/
def computeNextGen (e : GameOfLife) : GameOfLife :=
  let res := (evalCells e.chunkSize e.grid).foldl
    (stepCell e.grid e.bornRules e.surviveRules) (ChunkManager.empty e.chunkSize, 0)
  { e with grid := res.1, generation := e.generation + 1, population := res.2 }

/-- The number of live (nonzero) cells held in one stored chunk. -/
def chunkLive (cs : Nat) (ch : Chunk) : Nat :=
  (List.range (cs * cs)).countP (fun i => ch i != 0)

/-- The total number of live cells stored in the grid. -/
def liveCount (m : ChunkManager) : Nat :=
  (m.chunks.map (fun e => chunkLive m.chunkSize e.2)).sum

/-- The chunk map has pairwise distinct keys (the `Map` invariant). -/
def KeysNodup (m : ChunkManager) : Prop :=
  (m.chunks.map Prod.fst).Nodup

/-- The three cells of a horizontal 3-in-a-row blinker segment. -/
def horizL : List (Int × Int) := [(0, 0), (1, 0), (2, 0)]

/-- The three cells of the vertical 3-in-a-column segment with the same
centre `(1, 0)`. -/
def vertL : List (Int × Int) := [(1, -1), (1, 0), (1, 1)]

/-- A grid holding exactly the horizontal blinker (three `setCell` 1
writes on a fresh grid). -/
def blinkerH (cs : Nat) : ChunkManager :=
  (((ChunkManager.empty cs).setCell 0 0 1).setCell 1 0 1).setCell 2 0 1

/-! ## Coordinate arithmetic -/

theorem chunkCoord_eq_ediv (cs : Nat) (x : Int) :
    chunkCoord cs x = x / (cs : Int) := by
  simpa [chunkCoord] using Int.fdiv_eq_ediv x (by positivity : (0 : Int) ≤ (cs : Int))

theorem localCoord_coe (cs : Nat) (hcs : 0 < cs) (x : Int) :
    (localCoord cs x : Int) = x % (cs : Int) := by
  have hcs' : (0 : Int) < (cs : Int) := by exact_mod_cast hcs
  have hne : (cs : Int) ≠ 0 := ne_of_gt hcs'
  set t := Int.tmod x cs with ht
  have htpos : 0 ≤ t + cs := by
    have := Int.tmod_lt_of_pos x hcs'
    have hlow : -(cs : Int) < t := by
      have h1 := Int.tmod_lt_of_pos (-x) hcs'
      have h2 : Int.tmod (-x) cs = -t := by
        rw [ht, Int.tmod_def, Int.tmod_def, Int.neg_tdiv]; ring
      omega
    omega
  have hstep : (t + cs).tmod cs = (t + cs) % (cs : Int) :=
    Int.tmod_eq_emod htpos (le_of_lt hcs')
  have hmod : (t + cs) % (cs : Int) = x % (cs : Int) := by
    have hx : (cs : Int) * x.tdiv cs + t = x := Int.tdiv_add_tmod x cs
    calc (t + cs) % (cs : Int)
        = t % (cs : Int) := by
          rw [show t + (cs : Int) = t + cs * 1 by ring, Int.add_mul_emod_self_left]
      _ = (t + x.tdiv cs * cs) % (cs : Int) := (@Int.add_mul_emod_self t (x.tdiv cs) cs).symm
      _ = x % (cs : Int) := by ring_nf; rw [show t + x.tdiv cs * cs = x by linarith [hx]]
  have hnn : 0 ≤ (t + cs) % (cs : Int) := Int.emod_nonneg _ hne
  simp only [localCoord, ← ht, hstep, hmod]
  rw [← hmod, Int.toNat_of_nonneg hnn, hmod]

theorem localCoord_lt (cs : Nat) (hcs : 0 < cs) (x : Int) :
    localCoord cs x < cs := by
  have hcs' : (0 : Int) < (cs : Int) := by exact_mod_cast hcs
  have h1 : (localCoord cs x : Int) = x % (cs : Int) := localCoord_coe cs hcs x
  have h2 : x % (cs : Int) < cs := Int.emod_lt_of_pos x hcs'
  omega

/-- Cell decomposition: a coordinate is its chunk base plus its local
offset. -/
theorem chunkCoord_mul_add_localCoord (cs : Nat) (hcs : 0 < cs) (x : Int) :
    chunkCoord cs x * cs + (localCoord cs x : Int) = x := by
  rw [chunkCoord_eq_ediv, localCoord_coe cs hcs]
  have := Int.ediv_add_emod x (cs : Int)
  linarith

/-- `(chunkCoord, localCoord)` determines the coordinate. -/
theorem coord_eq_of_chunk_local_eq (cs : Nat) (hcs : 0 < cs) {x a : Int}
    (hc : chunkCoord cs x = chunkCoord cs a) (hl : localCoord cs x = localCoord cs a) :
    x = a := by
  have h1 := chunkCoord_mul_add_localCoord cs hcs x
  have h2 := chunkCoord_mul_add_localCoord cs hcs a
  rw [hc, hl] at h1
  omega

/-- The flat index determines both local offsets. -/
theorem local_eq_of_localIndex_eq (cs : Nat) (hcs : 0 < cs) {x y a b : Int}
    (h : localIndex cs x y = localIndex cs a b) :
    localCoord cs x = localCoord cs a ∧ localCoord cs y = localCoord cs b := by
  have hx := localCoord_lt cs hcs x
  have ha := localCoord_lt cs hcs a
  have hmx : (localCoord cs x + localCoord cs y * cs) % cs = localCoord cs x :=
    by rw [Nat.add_mul_mod_self_right, Nat.mod_eq_of_lt hx]
  have hma : (localCoord cs a + localCoord cs b * cs) % cs = localCoord cs a :=
    by rw [Nat.add_mul_mod_self_right, Nat.mod_eq_of_lt ha]
  have h' : localCoord cs x + localCoord cs y * cs = localCoord cs a + localCoord cs b * cs := by
    simpa [localIndex, Nat.add_comm] using h
  constructor
  · rw [← hmx, h', hma]
  · have hfst : localCoord cs x = localCoord cs a := by rw [← hmx, h', hma]
    have : localCoord cs y * cs = localCoord cs b * cs := by omega
    exact Nat.eq_of_mul_eq_mul_right hcs this

theorem localIndex_lt (cs : Nat) (hcs : 0 < cs) (x y : Int) :
    localIndex cs x y < cs * cs := by
  have hx := localCoord_lt cs hcs x
  have hy := localCoord_lt cs hcs y
  calc localCoord cs y * cs + localCoord cs x
      < localCoord cs y * cs + cs := by omega
    _ = (localCoord cs y + 1) * cs := by ring
    _ ≤ cs * cs := Nat.mul_le_mul_right cs (by omega)

/-- `chunkCoord` is monotone. -/
theorem chunkCoord_le_chunkCoord (cs : Nat) (hcs : 0 < cs) {x y : Int} (h : x ≤ y) :
    chunkCoord cs x ≤ chunkCoord cs y := by
  rw [chunkCoord_eq_ediv, chunkCoord_eq_ediv]
  exact Int.ediv_le_ediv (by exact_mod_cast hcs) h

/-- Moving a coordinate by at most one cell moves its chunk coordinate
by at most one chunk. -/
theorem chunkCoord_near (cs : Nat) (hcs : 0 < cs) {a x : Int}
    (h1 : a - 1 ≤ x) (h2 : x ≤ a + 1) :
    chunkCoord cs a - 1 ≤ chunkCoord cs x ∧ chunkCoord cs x ≤ chunkCoord cs a + 1 := by
  have hcs' : (1 : Int) ≤ (cs : Int) := by exact_mod_cast hcs
  have hl : a - cs ≤ x := by omega
  have hr : x ≤ a + cs := by omega
  have e1 : chunkCoord cs (a - cs) = chunkCoord cs a - 1 := by
    rw [chunkCoord_eq_ediv, chunkCoord_eq_ediv, show a - (cs : Int) = a + (-1) * cs by ring,
      Int.add_mul_ediv_right _ _ (by omega : (cs : Int) ≠ 0)]
    ring
  have e2 : chunkCoord cs (a + cs) = chunkCoord cs a + 1 := by
    rw [chunkCoord_eq_ediv, chunkCoord_eq_ediv, show a + (cs : Int) = a + 1 * cs by ring,
      Int.add_mul_ediv_right _ _ (by omega : (cs : Int) ≠ 0)]
  constructor
  · rw [← e1]; exact chunkCoord_le_chunkCoord cs hcs hl
  · rw [← e2]; exact chunkCoord_le_chunkCoord cs hcs hr

/-! ## Lookup and update lemmas for the chunk map -/

@[simp] theorem updateEntry_nil (c : Int × Int) (ch : Chunk) : updateEntry [] c ch = [] := rfl

theorem updateEntry_cons (e : (Int × Int) × Chunk) (l : List ((Int × Int) × Chunk))
    (c : Int × Int) (ch : Chunk) :
    updateEntry (e :: l) c ch = (if e.1 = c then (c, ch) else e) :: updateEntry l c ch := by
  simp [updateEntry]

theorem lookupChunk_append_some {l : List ((Int × Int) × Chunk)} {c : Int × Int} {ch0 : Chunk}
    (h : lookupChunk l c = some ch0) (e : (Int × Int) × Chunk) :
    lookupChunk (l ++ [e]) c = some ch0 := by
  induction l with
  | nil => simp [lookupChunk] at h
  | cons hd tl ih =>
      by_cases hh : hd.1 = c
      · simp only [lookupChunk, hh, if_pos rfl] at h ⊢
        exact h
      · simp only [lookupChunk, hh, if_false] at h
        simp only [List.cons_append, lookupChunk, hh, if_false]
        exact ih h

theorem lookupChunk_append_none {l : List ((Int × Int) × Chunk)} {c : Int × Int}
    (h : lookupChunk l c = none) (e : (Int × Int) × Chunk) :
    lookupChunk (l ++ [e]) c = if e.1 = c then some e.2 else none := by
  induction l with
  | nil => simp [lookupChunk]
  | cons hd tl ih =>
      by_cases hh : hd.1 = c
      · simp [lookupChunk, hh] at h
      · simp only [lookupChunk, hh, if_false] at h
        simp only [List.cons_append, lookupChunk, hh, if_false]
        exact ih h

theorem lookupChunk_updateEntry_self {l : List ((Int × Int) × Chunk)} {c : Int × Int}
    {ch0 : Chunk} (h : lookupChunk l c = some ch0) (ch : Chunk) :
    lookupChunk (updateEntry l c ch) c = some ch := by
  induction l with
  | nil => simp [lookupChunk] at h
  | cons hd tl ih =>
      rw [updateEntry_cons]
      by_cases hh : hd.1 = c
      · simp [lookupChunk, hh]
      · simp only [lookupChunk, hh, if_false] at h
        rw [if_neg hh]
        simp only [lookupChunk, hh, if_false]
        exact ih h

theorem lookupChunk_updateEntry_other (l : List ((Int × Int) × Chunk)) (c : Int × Int)
    (ch : Chunk) {c' : Int × Int} (h : c' ≠ c) :
    lookupChunk (updateEntry l c ch) c' = lookupChunk l c' := by
  induction l with
  | nil => simp
  | cons hd tl ih =>
      rw [updateEntry_cons]
      by_cases hh : hd.1 = c
      · rw [if_pos hh]
        simp only [lookupChunk, fun hcc : c = c' => h hcc.symm, if_false, hh ▸ (by simp [hh] : hd.1 = c)]
        rw [if_neg (fun hcc : c = c' => h hcc.symm), if_neg (hh ▸ fun hcc : hd.1 = c' => h (hh ▸ hcc).symm)]
        exact ih
      · rw [if_neg hh]
        by_cases hh' : hd.1 = c'
        · simp [lookupChunk, hh']
        · simp only [lookupChunk, hh', if_false]
          exact ih

theorem lookupChunk_mem_keys {l : List ((Int × Int) × Chunk)} {c : Int × Int} {ch : Chunk}
    (h : lookupChunk l c = some ch) : c ∈ l.map Prod.fst := by
  induction l with
  | nil => simp [lookupChunk] at h
  | cons hd tl ih =>
      by_cases hh : hd.1 = c
      · simp [hh]
      · simp only [lookupChunk, hh, if_false] at h
        simp [ih h]

theorem lookupChunk_none_of_not_mem {l : List ((Int × Int) × Chunk)} {c : Int × Int}
    (h : c ∉ l.map Prod.fst) : lookupChunk l c = none := by
  induction l with
  | nil => rfl
  | cons hd tl ih =>
      simp only [List.map_cons, List.mem_cons, not_or] at h
      have hne : ¬hd.1 = c := fun he => h.1 he.symm
      simp only [lookupChunk, if_neg hne]
      exact ih h.2

@[simp] theorem setCell_chunkSize (m : ChunkManager) (x y : Int) (s : Nat) :
    (m.setCell x y s).chunkSize = m.chunkSize := by
  unfold ChunkManager.setCell
  split <;> rfl

/-- The central read-after-write characterisation of the sparse grid:
`setCell` changes exactly the one targeted cell (to the written state
truncated to a byte) and no other cell. -/
theorem getCell_setCell (m : ChunkManager) (hcs : 0 < m.chunkSize) (a b x y : Int) (s : Nat) :
    (m.setCell a b s).getCell x y =
      if x = a ∧ y = b then s % 256 else m.getCell x y := by
  have hkey : ((chunkCoord m.chunkSize x, chunkCoord m.chunkSize y) : Int × Int) =
        (chunkCoord m.chunkSize a, chunkCoord m.chunkSize b) →
      localIndex m.chunkSize x y = localIndex m.chunkSize a b → (x = a ∧ y = b) := by
    intro hc hi
    rw [Prod.mk.injEq] at hc
    obtain ⟨hlx, hly⟩ := local_eq_of_localIndex_eq m.chunkSize hcs hi
    exact ⟨coord_eq_of_chunk_local_eq m.chunkSize hcs hc.1 hlx,
      coord_eq_of_chunk_local_eq m.chunkSize hcs hc.2 hly⟩
  rcases hlook : lookupChunk m.chunks (chunkCoord m.chunkSize a, chunkCoord m.chunkSize b)
    with _ | ch0
  all_goals
    unfold ChunkManager.setCell
    rw [hlook]
    unfold ChunkManager.getCell
  · -- chunk absent: a fresh chunk is appended
    by_cases hc : ((chunkCoord m.chunkSize x, chunkCoord m.chunkSize y) : Int × Int) =
        (chunkCoord m.chunkSize a, chunkCoord m.chunkSize b)
    · rw [show ((chunkCoord (ChunkManager.mk m.chunkSize
          (m.chunks ++ [((chunkCoord m.chunkSize a, chunkCoord m.chunkSize b),
            fun i => if i = localIndex m.chunkSize a b then s % 256 else 0)])).chunkSize x,
          chunkCoord (ChunkManager.mk m.chunkSize
          (m.chunks ++ [((chunkCoord m.chunkSize a, chunkCoord m.chunkSize b),
            fun i => if i = localIndex m.chunkSize a b then s % 256 else 0)])).chunkSize y) :
          Int × Int) = (chunkCoord m.chunkSize a, chunkCoord m.chunkSize b) from hc]
      rw [lookupChunk_append_none (hc ▸ hlook : lookupChunk m.chunks
        (chunkCoord m.chunkSize a, chunkCoord m.chunkSize b) = none)]
      simp only [if_pos rfl]
      by_cases hi : localIndex m.chunkSize x y = localIndex m.chunkSize a b
      · have hxy := hkey hc hi
        simp [hi, hxy]
      · have hxy : ¬(x = a ∧ y = b) := fun h => hi (by rcases h with ⟨rfl, rfl⟩; rfl)
        have hln : lookupChunk m.chunks (chunkCoord m.chunkSize x, chunkCoord m.chunkSize y) =
            none := by rw [hc]; exact hlook
        simp [hi, hxy, hln, hlook]
    · have hxy : ¬(x = a ∧ y = b) := fun h => hc (by rcases h with ⟨rfl, rfl⟩; rfl)
      rcases hlx : lookupChunk m.chunks (chunkCoord m.chunkSize x, chunkCoord m.chunkSize y)
        with _ | chx
      · rw [show lookupChunk (m.chunks ++ [((chunkCoord m.chunkSize a, chunkCoord m.chunkSize b),
            fun i => if i = localIndex m.chunkSize a b then s % 256 else 0)])
            (chunkCoord m.chunkSize x, chunkCoord m.chunkSize y) =
            if ((chunkCoord m.chunkSize a, chunkCoord m.chunkSize b) : Int × Int) =
              (chunkCoord m.chunkSize x, chunkCoord m.chunkSize y)
            then some (fun i => if i = localIndex m.chunkSize a b then s % 256 else 0) else none
          from lookupChunk_append_none hlx _]
        rw [if_neg (fun h => hc h.symm)]
        simp [hxy]
      · rw [lookupChunk_append_some hlx _]
        simp [hxy]
  · -- chunk present: it is updated in place
    by_cases hc : ((chunkCoord m.chunkSize x, chunkCoord m.chunkSize y) : Int × Int) =
        (chunkCoord m.chunkSize a, chunkCoord m.chunkSize b)
    · rw [show ((chunkCoord m.chunkSize x, chunkCoord m.chunkSize y) : Int × Int) =
          (chunkCoord m.chunkSize a, chunkCoord m.chunkSize b) from hc]
      rw [lookupChunk_updateEntry_self hlook]
      by_cases hi : localIndex m.chunkSize x y = localIndex m.chunkSize a b
      · have hxy := hkey hc hi
        simp [hi, hxy]
      · have hxy : ¬(x = a ∧ y = b) := fun h => hi (by rcases h with ⟨rfl, rfl⟩; rfl)
        simp only [hi, if_false, if_neg hxy]
        rw [hlook]
    · have hxy : ¬(x = a ∧ y = b) := fun h => hc (by rcases h with ⟨rfl, rfl⟩; rfl)
      rw [lookupChunk_updateEntry_other _ _ _ hc]
      simp [hxy]


/-! ## The cell loop of computeNextGen -/

@[simp] theorem getCell_empty (cs : Nat) (x y : Int) :
    (ChunkManager.empty cs).getCell x y = 0 := rfl

@[simp] theorem empty_chunkSize (cs : Nat) : (ChunkManager.empty cs).chunkSize = cs := rfl

theorem nextStateOf_eq_zero_or_one (m : ChunkManager) (born survive : List Nat) (x y : Int) :
    nextStateOf m born survive x y = 0 ∨ nextStateOf m born survive x y = 1 := by
  by_cases h : m.getCell x y = 1 <;>
    by_cases h2 : countNeighbors m x y ∈ survive <;>
    by_cases h3 : countNeighbors m x y ∈ born <;>
    simp [nextStateOf, h, h2, h3]

theorem stepCell_apply (src : ChunkManager) (born survive : List Nat)
    (g : ChunkManager) (pop : Nat) (p : Int × Int) :
    stepCell src born survive (g, pop) p =
      if nextStateOf src born survive p.1 p.2 ≠ 0 then (g.setCell p.1 p.2 1, pop + 1)
      else (g, pop) := rfl

theorem foldl_stepCell_chunkSize (src : ChunkManager) (born survive : List Nat)
    (L : List (Int × Int)) (g : ChunkManager) (pop : Nat) :
    (L.foldl (stepCell src born survive) (g, pop)).1.chunkSize = g.chunkSize := by
  induction L generalizing g pop with
  | nil => rfl
  | cons p L ih =>
      by_cases h : nextStateOf src born survive p.1 p.2 ≠ 0
      · rw [List.foldl_cons, stepCell_apply, if_pos h, ih, setCell_chunkSize]
      · rw [List.foldl_cons, stepCell_apply, if_neg h, ih]

/-- What the cell loop leaves at each coordinate: a `1` exactly at the
visited cells whose next state is truthy, the accumulator's prior
content elsewhere. -/
theorem foldl_stepCell_getCell (src : ChunkManager) (born survive : List Nat)
    (L : List (Int × Int)) (g : ChunkManager) (pop : Nat) (hcs : 0 < g.chunkSize)
    (x y : Int) :
    (L.foldl (stepCell src born survive) (g, pop)).1.getCell x y =
      if (x, y) ∈ L ∧ nextStateOf src born survive x y ≠ 0 then 1
      else g.getCell x y := by
  induction L generalizing g pop with
  | nil => simp
  | cons p L ih =>
      by_cases h1 : nextStateOf src born survive p.1 p.2 ≠ 0
      · rw [List.foldl_cons, stepCell_apply, if_pos h1]
        have hcs' : 0 < (g.setCell p.1 p.2 1).chunkSize := by
          rw [setCell_chunkSize]; exact hcs
        rw [ih (g.setCell p.1 p.2 1) (pop + 1) hcs']
        by_cases hm : (x, y) ∈ L ∧ nextStateOf src born survive x y ≠ 0
        · rw [if_pos hm, if_pos ⟨List.mem_cons_of_mem p hm.1, hm.2⟩]
        · rw [if_neg hm, getCell_setCell g hcs p.1 p.2 x y 1]
          by_cases hp : x = p.1 ∧ y = p.2
          · have hpe : ((x, y) : Int × Int) = p := by
              rcases hp with ⟨h, h'⟩; exact Prod.ext h h'
            have hns : nextStateOf src born survive x y ≠ 0 := by
              rcases hp with ⟨rfl, rfl⟩; exact h1
            rw [if_pos hp, if_pos ⟨by simp [hpe], hns⟩]
          · have hpe : ¬(((x, y) : Int × Int) = p) :=
              fun he => hp ⟨congrArg Prod.fst he, congrArg Prod.snd he⟩
            rw [if_neg hp, if_neg (by
              rintro ⟨hmem, hns⟩
              rcases List.mem_cons.mp hmem with he | hmem'
              · exact hpe he
              · exact hm ⟨hmem', hns⟩)]
      · rw [List.foldl_cons, stepCell_apply, if_neg h1]
        rw [ih g pop hcs]
        by_cases hp : ((x, y) : Int × Int) = p
        · have hz : nextStateOf src born survive x y = 0 := by
            have h1' := not_not.mp h1
            rw [show x = p.1 from congrArg Prod.fst hp, show y = p.2 from congrArg Prod.snd hp]
            exact h1'
          rw [if_neg (by rintro ⟨_, hns⟩; exact hns hz),
            if_neg (by rintro ⟨_, hns⟩; exact hns hz)]
        · by_cases hm : (x, y) ∈ L ∧ nextStateOf src born survive x y ≠ 0
          · rw [if_pos hm, if_pos ⟨List.mem_cons_of_mem p hm.1, hm.2⟩]
          · rw [if_neg hm, if_neg (by
              rintro ⟨hmem, hns⟩
              rcases List.mem_cons.mp hmem with he | hmem'
              · exact hp he
              · exact hm ⟨hmem', hns⟩)]

/-- The population accumulated by the cell loop: one per visited cell
whose next state is truthy. -/
theorem foldl_stepCell_pop (src : ChunkManager) (born survive : List Nat)
    (L : List (Int × Int)) (g : ChunkManager) (pop : Nat) :
    (L.foldl (stepCell src born survive) (g, pop)).2 =
      pop + L.countP (fun p => nextStateOf src born survive p.1 p.2 != 0) := by
  induction L generalizing g pop with
  | nil => simp
  | cons p L ih =>
      rw [List.countP_cons]
      by_cases h1 : nextStateOf src born survive p.1 p.2 ≠ 0
      · rw [List.foldl_cons, stepCell_apply, if_pos h1, ih]
        have hb : (nextStateOf src born survive p.1 p.2 != 0) = true := by
          simpa using h1
        rw [hb]
        simp only [eq_self_iff_true, if_true]
        omega
      · rw [List.foldl_cons, stepCell_apply, if_neg h1, ih]
        have h1' := not_not.mp h1
        simp [h1']

/-! ## The evaluation region -/

theorem mem_chunkCells (cs : Nat) (hcs : 0 < cs) (c p : Int × Int) :
    p ∈ chunkCells cs c ↔ chunkCoord cs p.1 = c.1 ∧ chunkCoord cs p.2 = c.2 := by
  constructor
  · intro hp
    unfold chunkCells at hp
    rw [List.mem_flatMap] at hp
    obtain ⟨ly, hly, hp⟩ := hp
    rw [List.mem_map] at hp
    obtain ⟨lx, hlx, hpe⟩ := hp
    rw [List.mem_range] at hly hlx
    have h1 : p.1 = c.1 * cs + (lx : Int) := by rw [← hpe]
    have h2 : p.2 = c.2 * cs + (ly : Int) := by rw [← hpe]
    have hbx : (0 : Int) ≤ (lx : Int) ∧ (lx : Int) < (cs : Int) := by
      constructor
      · exact_mod_cast Nat.zero_le lx
      · exact_mod_cast hlx
    have hby : (0 : Int) ≤ (ly : Int) ∧ (ly : Int) < (cs : Int) := by
      constructor
      · exact_mod_cast Nat.zero_le ly
      · exact_mod_cast hly
    constructor
    · rw [h1, chunkCoord_eq_ediv, show c.1 * (cs : Int) + lx = lx + c.1 * cs by ring,
        Int.add_mul_ediv_right _ _ (by exact_mod_cast Nat.pos_iff_ne_zero.mp hcs : (cs : Int) ≠ 0),
        Int.ediv_eq_zero_of_lt hbx.1 hbx.2]
      ring
    · rw [h2, chunkCoord_eq_ediv, show c.2 * (cs : Int) + ly = ly + c.2 * cs by ring,
        Int.add_mul_ediv_right _ _ (by exact_mod_cast Nat.pos_iff_ne_zero.mp hcs : (cs : Int) ≠ 0),
        Int.ediv_eq_zero_of_lt hby.1 hby.2]
      ring
  · rintro ⟨h1, h2⟩
    have hcs' : (0 : Int) < (cs : Int) := by exact_mod_cast hcs
    have d1 := chunkCoord_mul_add_localCoord cs hcs p.1
    have d2 := chunkCoord_mul_add_localCoord cs hcs p.2
    rw [h1] at d1
    rw [h2] at d2
    unfold chunkCells
    rw [List.mem_flatMap]
    refine ⟨localCoord cs p.2, List.mem_range.mpr (localCoord_lt cs hcs p.2), ?_⟩
    rw [List.mem_map]
    refine ⟨localCoord cs p.1, List.mem_range.mpr (localCoord_lt cs hcs p.1), ?_⟩
    rw [Prod.ext_iff]
    exact ⟨d1, d2⟩

theorem mem_evalCells (cs : Nat) (hcs : 0 < cs) (m : ChunkManager) (p : Int × Int) :
    p ∈ evalCells cs m ↔ (chunkCoord cs p.1, chunkCoord cs p.2) ∈ chunksToCheck m := by
  simp only [evalCells, List.mem_flatMap]
  constructor
  · rintro ⟨c, hc, hp⟩
    obtain ⟨h1, h2⟩ := (mem_chunkCells cs hcs c p).mp hp
    rwa [show ((chunkCoord cs p.1, chunkCoord cs p.2) : Int × Int) = c from Prod.ext h1 h2]
  · intro h
    exact ⟨(chunkCoord cs p.1, chunkCoord cs p.2), h, (mem_chunkCells cs hcs _ p).mpr ⟨rfl, rfl⟩⟩

theorem mem_neighborKeys_of_bounds {k a : Int × Int}
    (h1 : k.1 - 1 ≤ a.1) (h2 : a.1 ≤ k.1 + 1) (h3 : k.2 - 1 ≤ a.2) (h4 : a.2 ≤ k.2 + 1) :
    a ∈ neighborKeys k := by
  simp only [neighborKeys, chunkOffsets, List.mem_map, List.mem_cons, List.not_mem_nil, or_false]
  have hx : a.1 = k.1 - 1 ∨ a.1 = k.1 ∨ a.1 = k.1 + 1 := by omega
  have hy : a.2 = k.2 - 1 ∨ a.2 = k.2 ∨ a.2 = k.2 + 1 := by omega
  rcases hx with hx | hx | hx <;> rcases hy with hy | hy | hy
  · exact ⟨(-1, -1), Or.inl rfl, by rw [Prod.ext_iff]; constructor <;> simp <;> omega⟩
  · exact ⟨(-1, 0), by tauto, by rw [Prod.ext_iff]; constructor <;> simp <;> omega⟩
  · exact ⟨(-1, 1), by tauto, by rw [Prod.ext_iff]; constructor <;> simp <;> omega⟩
  · exact ⟨(0, -1), by tauto, by rw [Prod.ext_iff]; constructor <;> simp <;> omega⟩
  · exact ⟨(0, 0), by tauto, by rw [Prod.ext_iff]; constructor <;> simp <;> omega⟩
  · exact ⟨(0, 1), by tauto, by rw [Prod.ext_iff]; constructor <;> simp <;> omega⟩
  · exact ⟨(1, -1), by tauto, by rw [Prod.ext_iff]; constructor <;> simp <;> omega⟩
  · exact ⟨(1, 0), by tauto, by rw [Prod.ext_iff]; constructor <;> simp <;> omega⟩
  · exact ⟨(1, 1), by tauto, by rw [Prod.ext_iff]; constructor <;> simp <;> omega⟩

theorem mem_chunksToCheck (m : ChunkManager) (c : Int × Int) :
    c ∈ chunksToCheck m ↔ ∃ k ∈ m.chunks.map Prod.fst, c ∈ neighborKeys k := by
  simp [chunksToCheck, List.mem_dedup, List.mem_flatMap]

/-- A nonzero cell lives in a stored chunk. -/
theorem getCell_ne_zero_mem_keys (m : ChunkManager) (x y : Int) (h : m.getCell x y ≠ 0) :
    (chunkCoord m.chunkSize x, chunkCoord m.chunkSize y) ∈ m.chunks.map Prod.fst := by
  unfold ChunkManager.getCell at h
  rcases hl : lookupChunk m.chunks (chunkCoord m.chunkSize x, chunkCoord m.chunkSize y)
    with _ | ch
  · rw [hl] at h; simp at h
  · exact lookupChunk_mem_keys hl

/-- Any cell within Chebyshev distance 1 of a live cell has its chunk
in the evaluation region. -/
theorem near_live_mem_chunksToCheck (m : ChunkManager) (hcs : 0 < m.chunkSize)
    (a b x y : Int) (hl : m.getCell a b ≠ 0)
    (h1 : a - 1 ≤ x) (h2 : x ≤ a + 1) (h3 : b - 1 ≤ y) (h4 : y ≤ b + 1) :
    (chunkCoord m.chunkSize x, chunkCoord m.chunkSize y) ∈ chunksToCheck m := by
  rw [mem_chunksToCheck]
  refine ⟨(chunkCoord m.chunkSize a, chunkCoord m.chunkSize b),
    getCell_ne_zero_mem_keys m a b hl, ?_⟩
  obtain ⟨hx1, hx2⟩ := chunkCoord_near m.chunkSize hcs h1 h2
  obtain ⟨hy1, hy2⟩ := chunkCoord_near m.chunkSize hcs h3 h4
  exact mem_neighborKeys_of_bounds hx1 hx2 hy1 hy2

/-! ## Characterisation of computeNextGen -/

@[simp] theorem computeNextGen_chunkSize (e : GameOfLife) :
    (computeNextGen e).chunkSize = e.chunkSize := rfl

@[simp] theorem computeNextGen_bornRules (e : GameOfLife) :
    (computeNextGen e).bornRules = e.bornRules := rfl

@[simp] theorem computeNextGen_surviveRules (e : GameOfLife) :
    (computeNextGen e).surviveRules = e.surviveRules := rfl

@[simp] theorem computeNextGen_generation (e : GameOfLife) :
    (computeNextGen e).generation = e.generation + 1 := rfl

theorem computeNextGen_grid (e : GameOfLife) :
    (computeNextGen e).grid = ((evalCells e.chunkSize e.grid).foldl
      (stepCell e.grid e.bornRules e.surviveRules) (ChunkManager.empty e.chunkSize, 0)).1 := rfl

theorem computeNextGen_population_def (e : GameOfLife) :
    (computeNextGen e).population = ((evalCells e.chunkSize e.grid).foldl
      (stepCell e.grid e.bornRules e.surviveRules) (ChunkManager.empty e.chunkSize, 0)).2 := rfl

@[simp] theorem computeNextGen_grid_chunkSize (e : GameOfLife) :
    (computeNextGen e).grid.chunkSize = e.chunkSize := by
  rw [computeNextGen_grid, foldl_stepCell_chunkSize, empty_chunkSize]

/-- The destination grid reads `1` exactly at the evaluated cells whose
next state is truthy, and `0` everywhere else. -/
theorem computeNextGen_getCell (e : GameOfLife) (hcs : 0 < e.chunkSize) (x y : Int) :
    (computeNextGen e).grid.getCell x y =
      if (chunkCoord e.chunkSize x, chunkCoord e.chunkSize y) ∈ chunksToCheck e.grid
          ∧ nextStateOf e.grid e.bornRules e.surviveRules x y ≠ 0
      then 1 else 0 := by
  rw [computeNextGen_grid,
    foldl_stepCell_getCell e.grid e.bornRules e.surviveRules _ _ 0 (by simpa using hcs) x y]
  rw [getCell_empty]
  by_cases hm : ((x, y) : Int × Int) ∈ evalCells e.chunkSize e.grid
  · rw [mem_evalCells e.chunkSize hcs e.grid (x, y)] at hm
    by_cases hns : nextStateOf e.grid e.bornRules e.surviveRules x y ≠ 0
    · rw [if_pos ⟨(mem_evalCells e.chunkSize hcs e.grid (x, y)).mpr hm, hns⟩, if_pos ⟨hm, hns⟩]
    · rw [if_neg (by rintro ⟨_, h⟩; exact hns h), if_neg (by rintro ⟨_, h⟩; exact hns h)]
  · rw [if_neg (by rintro ⟨h, _⟩; exact hm h), if_neg (by
      rintro ⟨h, _⟩
      exact hm ((mem_evalCells e.chunkSize hcs e.grid (x, y)).mpr h))]

/-- The population set by `computeNextGen`: one per evaluated cell whose
next state is truthy. -/
theorem computeNextGen_population (e : GameOfLife) :
    (computeNextGen e).population = (evalCells e.chunkSize e.grid).countP
      (fun p => nextStateOf e.grid e.bornRules e.surviveRules p.1 p.2 != 0) := by
  rw [computeNextGen_population_def, foldl_stepCell_pop, Nat.zero_add]

/-! ## Claim C3: set/get round trip -/

/-- C3 (counterexample): `set(x, y, state); get(x, y) == state` fails for
`state = 256`, because the `Uint8Array` backing a chunk truncates every
written value to a byte: after `set(0, 0, 256)` the cell reads `0`. -/
theorem c3_roundtrip_counterexample :
    ((ChunkManager.empty 32).setCell 0 0 256).getCell 0 0 ≠ 256 := by decide

/-- C3 (amended): for every integer coordinate, positive or negative, and
every state value below 256 (the byte range a `Uint8Array` element can
hold), `set(x, y, state)` followed by `get(x, y)` returns exactly that
state. -/
theorem c3_set_get_roundtrip (m : ChunkManager) (hcs : 0 < m.chunkSize) (x y : Int)
    (s : Nat) (hs : s < 256) :
    (m.setCell x y s).getCell x y = s := by
  rw [getCell_setCell m hcs x y x y s, if_pos ⟨rfl, rfl⟩, Nat.mod_eq_of_lt hs]

/-- C3 witness: the amended round trip evaluated at chunk size 32,
coordinate `(-5, 7)` and state 255. -/
theorem c3_set_get_roundtrip_witness :
    0 < (ChunkManager.empty 32).chunkSize ∧ 255 < 256 ∧
    ((ChunkManager.empty 32).setCell (-5) 7 255).getCell (-5) 7 = 255 :=
  ⟨by decide, by decide,
    c3_set_get_roundtrip (ChunkManager.empty 32) (by decide) (-5) 7 255 (by decide)⟩

/-! ## Claim C4: floor division / floored modulo at chunk boundaries -/

/-- C4: with chunk size 32, cell (31,0) lands in chunk (0,0) and cell
(32,0) in the adjacent chunk (1,0), both independently readable; cell
(-1,0) lands in chunk (-1,0) at local offset (31,0) and creates no chunk
(0,0), so it cannot alias with it.  The mapping is flooring division and
floored (non-negative) modulo. -/
theorem c4_chunk_boundary_continuity :
    chunkCoord 32 31 = 0 ∧ chunkCoord 32 32 = 1 ∧ chunkCoord 32 (-1) = -1 ∧
    localCoord 32 31 = 31 ∧ localCoord 32 (-1) = 31 ∧
    (((ChunkManager.empty 32).setCell 31 0 5).setCell 32 0 7).getCell 31 0 = 5 ∧
    (((ChunkManager.empty 32).setCell 31 0 5).setCell 32 0 7).getCell 32 0 = 7 ∧
    ((((ChunkManager.empty 32).setCell 31 0 5).setCell 32 0 7).chunks.map Prod.fst
      = [(0, 0), (1, 0)]) ∧
    (((ChunkManager.empty 32).setCell (-1) 0 9).chunks.map Prod.fst = [(-1, 0)]) ∧
    ((ChunkManager.empty 32).setCell (-1) 0 9).getCell (-1) 0 = 9 ∧
    ((ChunkManager.empty 32).setCell (-1) 0 9).getCell 31 0 = 0 := by decide

/-! ## Claim C5: get is total and read-only -/

/-- C5: `get(x, y)` returns 0 whenever the owning chunk does not exist,
and a `get` call never modifies the grid: the state-passing form of the
method returns the chunk map (with every stored chunk) unchanged. -/
theorem c5_get_absent_zero_and_readonly (m : ChunkManager) (x y : Int) :
    (lookupChunk m.chunks (chunkCoord m.chunkSize x, chunkCoord m.chunkSize y) = none →
      m.getCell x y = 0) ∧
    (m.getCellS x y).2 = m ∧ (m.getCellS x y).1 = m.getCell x y := by
  refine ⟨?_, ?_, ?_⟩
  · intro h
    unfold ChunkManager.getCell
    rw [h]
  · unfold ChunkManager.getCellS
    rcases h : lookupChunk m.chunks (chunkCoord m.chunkSize x, chunkCoord m.chunkSize y)
      with _ | ch <;> simp [h]
  · unfold ChunkManager.getCellS ChunkManager.getCell
    rcases h : lookupChunk m.chunks (chunkCoord m.chunkSize x, chunkCoord m.chunkSize y)
      with _ | ch <;> simp [h]

/-- C5 witness: the theorem at the empty grid of chunk size 32 and cell
`(5, -7)`, with the owning-chunk-absent hypothesis discharged. -/
theorem c5_get_absent_zero_and_readonly_witness :
    (ChunkManager.empty 32).getCell 5 (-7) = 0 ∧
    ((ChunkManager.empty 32).getCellS 5 (-7)).2 = ChunkManager.empty 32 :=
  ⟨(c5_get_absent_zero_and_readonly (ChunkManager.empty 32) 5 (-7)).1 rfl,
    (c5_get_absent_zero_and_readonly (ChunkManager.empty 32) 5 (-7)).2.1⟩

/-! ## Claim C6: the generation counter -/

/-- C6: the generation counter is strictly monotonic: `N` calls to
`advance()` from generation `G` report generation `G + N`, for every
engine state (grid content, rules and chunk size unrestricted, so in
particular for an all-dead or empty grid). -/
theorem c6_generation_monotonic (e : GameOfLife) (n : Nat) :
    (computeNextGen^[n] e).generation = e.generation + n := by
  induction n with
  | zero => simp
  | succ n ih =>
      rw [Function.iterate_succ_apply', computeNextGen_generation, ih]
      omega

/-! ## Claim C8: rule replacement -/

/-- C8: `applyRule` replaces both rule sets wholesale (the new sets are
exactly the preset's `b` and `s` lists, nothing of the old sets remains)
and leaves grid, generation counter, population counter and chunk size
untouched, so only later `advance()` calls can be affected. -/
theorem c8_applyRule_frame (e : GameOfLife) (r : Rule) :
    (applyRule e r).grid = e.grid ∧
    (applyRule e r).generation = e.generation ∧
    (applyRule e r).population = e.population ∧
    (applyRule e r).chunkSize = e.chunkSize ∧
    (applyRule e r).bornRules = r.b ∧
    (applyRule e r).surviveRules = r.s :=
  ⟨rfl, rfl, rfl, rfl, rfl, rfl⟩

/-! ## Claims C1 and C2: the evaluation region and the transition rule -/

theorem nextStateOf_ne_zero_iff (m : ChunkManager) (born survive : List Nat) (x y : Int) :
    nextStateOf m born survive x y ≠ 0 ↔
      ((m.getCell x y = 1 ∧ countNeighbors m x y ∈ survive) ∨
        (m.getCell x y ≠ 1 ∧ countNeighbors m x y ∈ born)) := by
  by_cases h : m.getCell x y = 1 <;>
    by_cases h2 : countNeighbors m x y ∈ survive <;>
    by_cases h3 : countNeighbors m x y ∈ born <;>
    simp [nextStateOf, h, h2, h3]

theorem neighborOffsets_bounds :
    ∀ d ∈ neighborOffsets, -1 ≤ d.1 ∧ d.1 ≤ 1 ∧ -1 ≤ d.2 ∧ d.2 ≤ 1 := by decide

/-- A nonzero neighbour count yields a live cell within Chebyshev
distance 1. -/
theorem exists_live_neighbor (m : ChunkManager) (x y : Int)
    (h : countNeighbors m x y ≠ 0) :
    ∃ a b : Int, m.getCell a b ≠ 0 ∧ a - 1 ≤ x ∧ x ≤ a + 1 ∧ b - 1 ≤ y ∧ y ≤ b + 1 := by
  have hpos : 0 < neighborOffsets.countP (fun d => m.getCell (x + d.1) (y + d.2) != 0) := by
    have := h
    unfold countNeighbors at this
    omega
  obtain ⟨d, hd, hdl⟩ := List.countP_pos_iff.mp hpos
  obtain ⟨b1, b2, b3, b4⟩ := neighborOffsets_bounds d hd
  refine ⟨x + d.1, y + d.2, by simpa using hdl, by omega, by omega, by omega, by omega⟩

/-- C1 (counterexample): with rule sets `born = {0}`, `survive = {}` —
allowed by the claim's `born ⊆ [0,8]` — and an empty source grid, the
cell (0,0) has rule-defined next state alive (a dead cell with 0 live
neighbours is born), yet the evaluation region is empty, so the cell is
outside it and stays dead in the destination grid. -/
theorem c1_region_counterexample :
    nextStateOf (ChunkManager.empty 32) [0] [] 0 0 = 1 ∧
    chunksToCheck (ChunkManager.empty 32) = [] ∧
    (computeNextGen ⟨32, ChunkManager.empty 32, [0], [], 0, 0⟩).grid.getCell 0 0 = 0 := by
  exact ⟨by decide, rfl, by decide⟩

/-- C1 (amended): provided `0 ∉ born` (true of every rule the program
can configure: the born checkboxes offer only 1..8 and every preset's
`b` avoids 0), the evaluation region of `advance()` is sound: every
currently-live cell, and every cell whose rule-defined next state is
alive, lies in a chunk of `chunksToCheck`; consequently every cell whose
chunk is outside the region reads dead in the destination grid. -/
theorem c1_evaluation_region_sound (e : GameOfLife) (hcs : 0 < e.chunkSize)
    (hgs : e.grid.chunkSize = e.chunkSize) (hb : 0 ∉ e.bornRules) (x y : Int) :
    ((nextStateOf e.grid e.bornRules e.surviveRules x y = 1 ∨ e.grid.getCell x y ≠ 0) →
      (chunkCoord e.chunkSize x, chunkCoord e.chunkSize y) ∈ chunksToCheck e.grid) ∧
    ((chunkCoord e.chunkSize x, chunkCoord e.chunkSize y) ∉ chunksToCheck e.grid →
      (computeNextGen e).grid.getCell x y = 0) := by
  have hcs' : 0 < e.grid.chunkSize := by rw [hgs]; exact hcs
  constructor
  · intro h
    by_cases hlive : e.grid.getCell x y ≠ 0
    · have := near_live_mem_chunksToCheck e.grid hcs' x y x y hlive
        (by omega) (by omega) (by omega) (by omega)
      rwa [hgs] at this
    · have hz : e.grid.getCell x y = 0 := not_not.mp hlive
      rcases h with h | h
      · have hcount : countNeighbors e.grid x y ∈ e.bornRules := by
          by_contra hc
          simp [nextStateOf, hz, hc] at h
        have hcn : countNeighbors e.grid x y ≠ 0 := fun h0 => hb (h0 ▸ hcount)
        obtain ⟨a, b, hl, h1, h2, h3, h4⟩ := exists_live_neighbor e.grid x y hcn
        have := near_live_mem_chunksToCheck e.grid hcs' a b x y hl h1 h2 h3 h4
        rwa [hgs] at this
      · exact absurd h hlive
  · intro hout
    rw [computeNextGen_getCell e hcs x y, if_neg (by rintro ⟨hm, _⟩; exact hout hm)]

/-- C1 witness: the amended theorem at a one-live-cell grid of chunk
size 32 under the Conway rule, at the cell (1, 1). -/
theorem c1_evaluation_region_sound_witness :
    0 < (⟨32, (ChunkManager.empty 32).setCell 0 0 1, [3], [2, 3], 0, 0⟩ : GameOfLife).chunkSize ∧
    ((⟨32, (ChunkManager.empty 32).setCell 0 0 1, [3], [2, 3], 0, 0⟩ : GameOfLife)).grid.chunkSize = 32 ∧
    0 ∉ [3] ∧
    (((nextStateOf ((ChunkManager.empty 32).setCell 0 0 1) [3] [2, 3] 1 1 = 1 ∨
        ((ChunkManager.empty 32).setCell 0 0 1).getCell 1 1 ≠ 0) →
      (chunkCoord 32 1, chunkCoord 32 1) ∈ chunksToCheck ((ChunkManager.empty 32).setCell 0 0 1)) ∧
    ((chunkCoord 32 1, chunkCoord 32 1) ∉ chunksToCheck ((ChunkManager.empty 32).setCell 0 0 1) →
      (computeNextGen ⟨32, (ChunkManager.empty 32).setCell 0 0 1, [3], [2, 3], 0, 0⟩).grid.getCell 1 1 = 0)) :=
  ⟨by decide, rfl, by decide,
    c1_evaluation_region_sound ⟨32, (ChunkManager.empty 32).setCell 0 0 1, [3], [2, 3], 0, 0⟩
      (by decide) rfl (by decide) 1 1⟩

/-- C2 (counterexample): a stored nonzero state other than 1 is NOT
treated as alive by the transition.  With Conway rules, the cell (0,0)
holds state 2 and has exactly 2 live neighbours — 2 is in `survive`, so
under the claim its next state would be 1 — yet `advance()` takes the
`state === 1` branch comparison, falls into the born branch (2 ∉ born)
and leaves the cell dead in the destination grid. -/
theorem c2_nonzero_state_counterexample :
    ((((ChunkManager.empty 32).setCell 0 0 2).setCell 0 1 1).setCell 1 0 1).getCell 0 0 = 2 ∧
    countNeighbors ((((ChunkManager.empty 32).setCell 0 0 2).setCell 0 1 1).setCell 1 0 1) 0 0
      = 2 ∧
    (2 : Nat) ∈ [2, 3] ∧
    (chunkCoord 32 0, chunkCoord 32 0) ∈
      chunksToCheck ((((ChunkManager.empty 32).setCell 0 0 2).setCell 0 1 1).setCell 1 0 1) ∧
    (computeNextGen ⟨32, (((ChunkManager.empty 32).setCell 0 0 2).setCell 0 1 1).setCell 1 0 1,
      [3], [2, 3], 0, 0⟩).grid.getCell 0 0 = 0 := by
  refine ⟨by decide, by decide, by decide, by decide, ?_⟩
  rw [computeNextGen_getCell _ (by decide) 0 0]
  rw [if_neg]
  rintro ⟨-, hns⟩
  exact hns (by decide)

/-- C2 (amended): for every evaluated cell (a cell whose chunk is in the
evaluation region), the destination state is 1 if and only if (the
current state is exactly 1 and the neighbour count is in `survive`) or
(the current state is anything other than 1 — dead, or a nonzero value
other than 1 — and the neighbour count is in `born`); otherwise it is 0.
Nonzero states other than 1 do count as live neighbours, but take the
born branch of the transition. -/
theorem c2_transition_rule (e : GameOfLife) (hcs : 0 < e.chunkSize) (x y : Int)
    (hin : (chunkCoord e.chunkSize x, chunkCoord e.chunkSize y) ∈ chunksToCheck e.grid) :
    (computeNextGen e).grid.getCell x y =
      if (e.grid.getCell x y = 1 ∧ countNeighbors e.grid x y ∈ e.surviveRules) ∨
          (e.grid.getCell x y ≠ 1 ∧ countNeighbors e.grid x y ∈ e.bornRules)
      then 1 else 0 := by
  rw [computeNextGen_getCell e hcs x y]
  by_cases h : (e.grid.getCell x y = 1 ∧ countNeighbors e.grid x y ∈ e.surviveRules) ∨
      (e.grid.getCell x y ≠ 1 ∧ countNeighbors e.grid x y ∈ e.bornRules)
  · rw [if_pos h, if_pos ⟨hin, (nextStateOf_ne_zero_iff e.grid e.bornRules e.surviveRules x y).mpr h⟩]
  · rw [if_neg h, if_neg (by
      rintro ⟨-, hns⟩
      exact h ((nextStateOf_ne_zero_iff e.grid e.bornRules e.surviveRules x y).mp hns))]

/-- C2 witness: the amended transition rule evaluated on a single live
cell under the Conway rule at the cell (0, 0) itself. -/
theorem c2_transition_rule_witness :
    0 < (32 : Nat) ∧
    (chunkCoord 32 0, chunkCoord 32 0) ∈ chunksToCheck ((ChunkManager.empty 32).setCell 0 0 1) ∧
    (computeNextGen ⟨32, (ChunkManager.empty 32).setCell 0 0 1, [3], [2, 3], 0, 0⟩).grid.getCell 0 0 =
      if (((ChunkManager.empty 32).setCell 0 0 1).getCell 0 0 = 1 ∧
            countNeighbors ((ChunkManager.empty 32).setCell 0 0 1) 0 0 ∈ [2, 3]) ∨
          (((ChunkManager.empty 32).setCell 0 0 1).getCell 0 0 ≠ 1 ∧
            countNeighbors ((ChunkManager.empty 32).setCell 0 0 1) 0 0 ∈ [3])
      then 1 else 0 :=
  ⟨by decide, by decide,
    c2_transition_rule ⟨32, (ChunkManager.empty 32).setCell 0 0 1, [3], [2, 3], 0, 0⟩
      (by decide) 0 0 (by decide)⟩

/-! ## Claim C10: destination chunks hold at least one live cell -/

theorem setCell_preserves_liveChunks (m : ChunkManager) (hcs : 0 < m.chunkSize)
    (x y : Int) (s : Nat) (hs : s % 256 ≠ 0)
    (hm : ∀ ent ∈ m.chunks, ∃ i, i < m.chunkSize * m.chunkSize ∧ ent.2 i ≠ 0) :
    ∀ ent ∈ (m.setCell x y s).chunks,
      ∃ i, i < m.chunkSize * m.chunkSize ∧ ent.2 i ≠ 0 := by
  intro ent hent
  unfold ChunkManager.setCell at hent
  rcases hlook : lookupChunk m.chunks (chunkCoord m.chunkSize x, chunkCoord m.chunkSize y)
    with _ | ch
  · rw [hlook] at hent
    dsimp only at hent
    rcases List.mem_append.mp hent with h | h
    · exact hm ent h
    · have he : ent = ((chunkCoord m.chunkSize x, chunkCoord m.chunkSize y),
          fun i => if i = localIndex m.chunkSize x y then s % 256 else 0) := by
        simpa using h
      refine ⟨localIndex m.chunkSize x y, localIndex_lt m.chunkSize hcs x y, ?_⟩
      rw [he]
      simpa using hs
  · rw [hlook] at hent
    dsimp only at hent
    unfold updateEntry at hent
    rw [List.mem_map] at hent
    obtain ⟨e0, he0, hee⟩ := hent
    by_cases h : e0.1 = (chunkCoord m.chunkSize x, chunkCoord m.chunkSize y)
    · rw [if_pos h] at hee
      refine ⟨localIndex m.chunkSize x y, localIndex_lt m.chunkSize hcs x y, ?_⟩
      rw [← hee]
      simpa using hs
    · rw [if_neg h] at hee
      exact hee ▸ hm e0 he0

theorem foldl_stepCell_liveChunks (src : ChunkManager) (born survive : List Nat)
    (L : List (Int × Int)) (g : ChunkManager) (pop : Nat) (cs : Nat)
    (hgcs : g.chunkSize = cs) (hcs : 0 < cs)
    (hg : ∀ ent ∈ g.chunks, ∃ i, i < cs * cs ∧ ent.2 i ≠ 0) :
    ∀ ent ∈ (L.foldl (stepCell src born survive) (g, pop)).1.chunks,
      ∃ i, i < cs * cs ∧ ent.2 i ≠ 0 := by
  induction L generalizing g pop with
  | nil => exact hg
  | cons p L ih =>
      by_cases h1 : nextStateOf src born survive p.1 p.2 ≠ 0
      · rw [List.foldl_cons, stepCell_apply, if_pos h1]
        refine ih (g.setCell p.1 p.2 1) (pop + 1) (by rw [setCell_chunkSize]; exact hgcs) ?_
        have := setCell_preserves_liveChunks g (by rw [hgcs]; exact hcs) p.1 p.2 1
          (by decide) (by rw [hgcs]; exact hg)
        rw [hgcs] at this
        exact this
      · rw [List.foldl_cons, stepCell_apply, if_neg h1]
        exact ih g pop hgcs hg

/-- C10: the grid produced by `advance()` is maximally sparse at chunk
granularity: every chunk stored in the destination grid holds at least
one live cell, because destination chunks are created only by the
writes of live next-generation cells (always the value 1). -/
theorem c10_destination_chunks_live (e : GameOfLife) (hcs : 0 < e.chunkSize) :
    ∀ ent ∈ (computeNextGen e).grid.chunks,
      ∃ i, i < e.chunkSize * e.chunkSize ∧ ent.2 i ≠ 0 := by
  rw [computeNextGen_grid]
  exact foldl_stepCell_liveChunks e.grid e.bornRules e.surviveRules
    (evalCells e.chunkSize e.grid) (ChunkManager.empty e.chunkSize) 0 e.chunkSize rfl hcs
    (by intro ent h; simp [ChunkManager.empty] at h)

/-- C10 witness: the theorem applied to a 2×2 block under the Conway
rule at chunk size 32. -/
theorem c10_destination_chunks_live_witness :
    0 < (32 : Nat) ∧
    ∀ ent ∈ (computeNextGen ⟨32,
        ((((ChunkManager.empty 32).setCell 0 0 1).setCell 1 0 1).setCell 0 1 1).setCell 1 1 1,
        [3], [2, 3], 0, 0⟩).grid.chunks,
      ∃ i, i < 32 * 32 ∧ ent.2 i ≠ 0 :=
  ⟨by decide,
    c10_destination_chunks_live ⟨32,
      ((((ChunkManager.empty 32).setCell 0 0 1).setCell 1 0 1).setCell 0 1 1).setCell 1 1 1,
      [3], [2, 3], 0, 0⟩ (by decide)⟩

/-! ## Claim C7: population equals stored live-cell count -/

theorem countP_update_pos (l : List Nat) (hnd : l.Nodup) (idx : Nat) (hidx : idx ∈ l)
    (f : Nat → Nat) (hf : f idx = 0) (v : Nat) (hv : v ≠ 0) :
    l.countP (fun i => (if i = idx then v else f i) != 0) =
      l.countP (fun i => f i != 0) + 1 := by
  induction l with
  | nil => simp at hidx
  | cons a t ih =>
      rw [List.countP_cons, List.countP_cons]
      rcases List.nodup_cons.mp hnd with ⟨hat, hndt⟩
      by_cases ha : a = idx
      · subst ha
        have ht : t.countP (fun i => (if i = a then v else f i) != 0) =
            t.countP (fun i => f i != 0) := by
          refine List.countP_congr ?_
          intro x hx
          have hxa : ¬(x = a) := fun he => hat (he ▸ hx)
          simp [hxa]
        rw [ht]
        simp [hf, hv]
      · have hidx' : idx ∈ t := by
          rcases List.mem_cons.mp hidx with h | h
          · exact absurd h.symm ha
          · exact h
        rw [ih hndt hidx']
        simp only [ha, if_false]
        omega

theorem chunkLive_update (cs : Nat) (ch : Chunk) (idx : Nat) (hidx : idx < cs * cs)
    (hch : ch idx = 0) (v : Nat) (hv : v ≠ 0) :
    chunkLive cs (fun i => if i = idx then v else ch i) = chunkLive cs ch + 1 :=
  countP_update_pos (List.range (cs * cs)) (List.nodup_range (cs * cs)) idx
    (List.mem_range.mpr hidx) ch hch v hv

theorem chunkLive_single (cs : Nat) (idx : Nat) (hidx : idx < cs * cs) (v : Nat) (hv : v ≠ 0) :
    chunkLive cs (fun i => if i = idx then v else 0) = 1 := by
  have h0 : chunkLive cs (fun _ => 0) = 0 := by simp [chunkLive]
  have h1 := chunkLive_update cs (fun _ => 0) idx hidx rfl v hv
  simpa [h0] using h1

theorem updateEntry_eq_of_not_mem {l : List ((Int × Int) × Chunk)} {c : Int × Int}
    (h : c ∉ l.map Prod.fst) (ch : Chunk) : updateEntry l c ch = l := by
  induction l with
  | nil => rfl
  | cons e t ih =>
      simp only [List.map_cons, List.mem_cons, not_or] at h
      rw [updateEntry_cons, if_neg (fun he => h.1 he.symm), ih h.2]

theorem updateEntry_map_fst (l : List ((Int × Int) × Chunk)) (c : Int × Int) (ch : Chunk) :
    (updateEntry l c ch).map Prod.fst = l.map Prod.fst := by
  induction l with
  | nil => rfl
  | cons e t ih =>
      rw [updateEntry_cons, List.map_cons, List.map_cons, ih]
      by_cases he : e.1 = c
      · rw [if_pos he]
        simp [he]
      · rw [if_neg he]

theorem exists_lookupChunk_of_mem {l : List ((Int × Int) × Chunk)} {c : Int × Int}
    (h : c ∈ l.map Prod.fst) : ∃ ch, lookupChunk l c = some ch := by
  induction l with
  | nil => simp at h
  | cons e t ih =>
      by_cases he : e.1 = c
      · exact ⟨e.2, by simp [lookupChunk, he]⟩
      · rw [List.map_cons] at h
        rcases List.mem_cons.mp h with h' | h'
        · exact absurd h'.symm he
        · obtain ⟨ch, hch⟩ := ih h'
          exact ⟨ch, by simp [lookupChunk, he, hch]⟩

theorem sum_chunkLive_updateEntry (cs : Nat) (l : List ((Int × Int) × Chunk))
    (hnd : (l.map Prod.fst).Nodup) (c : Int × Int) (ch0 nch : Chunk)
    (hl : lookupChunk l c = some ch0) (hch : chunkLive cs nch = chunkLive cs ch0 + 1) :
    ((updateEntry l c nch).map (fun e => chunkLive cs e.2)).sum =
      ((l.map (fun e => chunkLive cs e.2)).sum) + 1 := by
  induction l with
  | nil => simp [lookupChunk] at hl
  | cons e t ih =>
      rw [List.map_cons] at hnd
      rcases List.nodup_cons.mp hnd with ⟨het, hndt⟩
      by_cases he : e.1 = c
      · have hch0 : e.2 = ch0 := by
          unfold lookupChunk at hl
          rw [if_pos he] at hl
          exact Option.some.inj hl
        have hupd : updateEntry t c nch = t :=
          updateEntry_eq_of_not_mem (by rw [← he]; exact het) nch
        rw [updateEntry_cons, if_pos he, hupd, List.map_cons, List.map_cons,
          List.sum_cons, List.sum_cons, hch, hch0]
        omega
      · simp only [lookupChunk, he, if_false] at hl
        rw [updateEntry_cons, if_neg he, List.map_cons, List.map_cons,
          List.sum_cons, List.sum_cons, ih hndt hl]
        omega

theorem liveCount_setCell_fresh (m : ChunkManager) (hcs : 0 < m.chunkSize)
    (hkeys : KeysNodup m) (x y : Int) (s : Nat) (hs : s % 256 ≠ 0)
    (hfresh : m.getCell x y = 0) :
    liveCount (m.setCell x y s) = liveCount m + 1 := by
  unfold liveCount
  rw [setCell_chunkSize]
  unfold ChunkManager.setCell
  rcases hlook : lookupChunk m.chunks (chunkCoord m.chunkSize x, chunkCoord m.chunkSize y)
    with _ | ch0
  · dsimp only
    rw [List.map_append, List.sum_append]
    simp only [List.map_cons, List.map_nil, List.sum_cons, List.sum_nil]
    rw [chunkLive_single m.chunkSize (localIndex m.chunkSize x y)
      (localIndex_lt m.chunkSize hcs x y) (s % 256) hs]
    omega
  · dsimp only
    have hch0 : ch0 (localIndex m.chunkSize x y) = 0 := by
      unfold ChunkManager.getCell at hfresh
      rw [hlook] at hfresh
      exact hfresh
    exact sum_chunkLive_updateEntry m.chunkSize m.chunks hkeys _ ch0 _ hlook
      (chunkLive_update m.chunkSize ch0 (localIndex m.chunkSize x y)
        (localIndex_lt m.chunkSize hcs x y) hch0 (s % 256) hs)

theorem setCell_keysNodup (m : ChunkManager) (hkeys : KeysNodup m) (x y : Int) (s : Nat) :
    KeysNodup (m.setCell x y s) := by
  unfold KeysNodup ChunkManager.setCell
  rcases hlook : lookupChunk m.chunks (chunkCoord m.chunkSize x, chunkCoord m.chunkSize y)
    with _ | ch0
  · dsimp only
    rw [List.map_append]
    refine List.Nodup.append hkeys (by simp) ?_
    intro a ha hb
    have hac : a = (chunkCoord m.chunkSize x, chunkCoord m.chunkSize y) := by simpa using hb
    subst hac
    obtain ⟨ch, hch⟩ := exists_lookupChunk_of_mem ha
    rw [hlook] at hch
    exact Option.noConfusion hch
  · dsimp only
    rw [updateEntry_map_fst]
    exact hkeys

theorem chunkCells_nodup (cs : Nat) (c : Int × Int) : (chunkCells cs c).Nodup := by
  unfold chunkCells
  rw [List.nodup_flatMap]
  constructor
  · intro ly hly
    refine List.Nodup.map ?_ (List.nodup_range cs)
    intro lx1 lx2 h
    have h1 : c.1 * (cs : Int) + lx1 = c.1 * cs + lx2 := congrArg Prod.fst h
    have h2 : (lx1 : Int) = lx2 := by omega
    exact_mod_cast h2
  · refine List.Pairwise.imp ?_ (List.nodup_range cs)
    intro a b hab p hpa hpb
    rw [List.mem_map] at hpa hpb
    obtain ⟨lx1, hm1, h1⟩ := hpa
    obtain ⟨lx2, hm2, h2⟩ := hpb
    have e1 : c.2 * (cs : Int) + a = p.2 := congrArg Prod.snd h1
    have e2 : c.2 * (cs : Int) + b = p.2 := congrArg Prod.snd h2
    have : (a : Int) = b := by omega
    exact hab (by exact_mod_cast this)

theorem evalCells_nodup (cs : Nat) (hcs : 0 < cs) (m : ChunkManager) :
    (evalCells cs m).Nodup := by
  unfold evalCells
  rw [List.nodup_flatMap]
  refine ⟨fun c _ => chunkCells_nodup cs c, ?_⟩
  unfold chunksToCheck
  refine List.Pairwise.imp ?_
    (List.nodup_dedup ((m.chunks.map Prod.fst).flatMap neighborKeys))
  intro a b hab p hpa hpb
  obtain ⟨h1, h2⟩ := (mem_chunkCells cs hcs a p).mp hpa
  obtain ⟨h3, h4⟩ := (mem_chunkCells cs hcs b p).mp hpb
  exact hab (Prod.ext (h1.symm.trans h3) (h2.symm.trans h4))

/-- The live-cell count of the grid built by the cell loop, starting
from a grid on which none of the (pairwise distinct) visited cells is
live: each truthy write adds exactly one stored live cell. -/
theorem foldl_stepCell_liveCount (src : ChunkManager) (born survive : List Nat)
    (L : List (Int × Int)) (g : ChunkManager) (pop : Nat)
    (hcs : 0 < g.chunkSize) (hnd : L.Nodup) (hkeys : KeysNodup g)
    (hfresh : ∀ p ∈ L, g.getCell p.1 p.2 = 0) :
    liveCount (L.foldl (stepCell src born survive) (g, pop)).1 =
      liveCount g + L.countP (fun p => nextStateOf src born survive p.1 p.2 != 0) := by
  induction L generalizing g pop with
  | nil => simp
  | cons p L ih =>
      rcases List.nodup_cons.mp hnd with ⟨hpt, hndt⟩
      rw [List.countP_cons]
      by_cases h1 : nextStateOf src born survive p.1 p.2 ≠ 0
      · rw [List.foldl_cons, stepCell_apply, if_pos h1]
        have hfreshp : g.getCell p.1 p.2 = 0 := hfresh p (List.mem_cons_self p L)
        have hlc : liveCount (g.setCell p.1 p.2 1) = liveCount g + 1 :=
          liveCount_setCell_fresh g hcs hkeys p.1 p.2 1 (by decide) hfreshp
        have hcs' : 0 < (g.setCell p.1 p.2 1).chunkSize := by
          rw [setCell_chunkSize]; exact hcs
        have hkeys' : KeysNodup (g.setCell p.1 p.2 1) := setCell_keysNodup g hkeys p.1 p.2 1
        have hfresh' : ∀ q ∈ L, (g.setCell p.1 p.2 1).getCell q.1 q.2 = 0 := by
          intro q hq
          rw [getCell_setCell g hcs p.1 p.2 q.1 q.2 1,
            if_neg (by rintro ⟨hq1, hq2⟩; exact hpt (Prod.ext hq1 hq2 ▸ hq))]
          exact hfresh q (List.mem_cons_of_mem p hq)
        rw [ih _ _ hcs' hndt hkeys' hfresh', hlc]
        have hb : (nextStateOf src born survive p.1 p.2 != 0) = true := by simpa using h1
        rw [hb]
        simp only [eq_self_iff_true, if_true]
        omega
      · rw [List.foldl_cons, stepCell_apply, if_neg h1]
        rw [ih g pop hcs hndt hkeys (fun q hq => hfresh q (List.mem_cons_of_mem p hq))]
        have h1' := not_not.mp h1
        simp [h1']

/-- C7: after every `advance()`, the population counter equals the
exact number of live (nonzero) cells stored in the new grid — the sum
over all stored destination chunks of their nonzero entries, so each
live cell is counted exactly once. -/
theorem c7_population_counts_live_cells (e : GameOfLife) (hcs : 0 < e.chunkSize) :
    (computeNextGen e).population = liveCount (computeNextGen e).grid := by
  rw [computeNextGen_population, computeNextGen_grid,
    foldl_stepCell_liveCount e.grid e.bornRules e.surviveRules _ _ 0 (by simpa using hcs)
      (evalCells_nodup e.chunkSize hcs e.grid) (by simp [KeysNodup, ChunkManager.empty])
      (fun p _ => getCell_empty e.chunkSize p.1 p.2)]
  simp [liveCount, ChunkManager.empty]

/-- C7 witness: the theorem at a 2×2 block under the Conway rule. -/
theorem c7_population_counts_live_cells_witness :
    0 < (32 : Nat) ∧
    (computeNextGen ⟨32,
        ((((ChunkManager.empty 32).setCell 0 0 1).setCell 1 0 1).setCell 0 1 1).setCell 1 1 1,
        [3], [2, 3], 0, 0⟩).population =
      liveCount (computeNextGen ⟨32,
        ((((ChunkManager.empty 32).setCell 0 0 1).setCell 1 0 1).setCell 0 1 1).setCell 1 1 1,
        [3], [2, 3], 0, 0⟩).grid :=
  ⟨by decide,
    c7_population_counts_live_cells ⟨32,
      ((((ChunkManager.empty 32).setCell 0 0 1).setCell 1 0 1).setCell 0 1 1).setCell 1 1 1,
      [3], [2, 3], 0, 0⟩ (by decide)⟩

/-! ## Claim C9: the blinker oscillator -/

theorem getCell_blinkerH (cs : Nat) (hcs : 0 < cs) (a b : Int) :
    (blinkerH cs).getCell a b = if (a, b) ∈ horizL then 1 else 0 := by
  unfold blinkerH
  have h1 : 0 < ((ChunkManager.empty cs).setCell 0 0 1).chunkSize := by simpa using hcs
  have h2 : 0 < (((ChunkManager.empty cs).setCell 0 0 1).setCell 1 0 1).chunkSize := by
    simpa using hcs
  rw [getCell_setCell _ h2 2 0 a b 1, getCell_setCell _ h1 1 0 a b 1,
    getCell_setCell _ (by simpa using hcs) 0 0 a b 1, getCell_empty]
  simp only [horizL, List.mem_cons, List.not_mem_nil, or_false, Prod.mk.injEq]
  split_ifs <;> (simp_all; try tauto)

theorem countNeighbors_of_indicator (m : ChunkManager) (S : List (Int × Int))
    (hm : ∀ a b : Int, m.getCell a b = if (a, b) ∈ S then 1 else 0) (x y : Int) :
    countNeighbors m x y =
      neighborOffsets.countP (fun d => decide ((x + d.1, y + d.2) ∈ S)) := by
  unfold countNeighbors
  refine List.countP_congr ?_
  intro d _
  rw [hm]
  by_cases h : ((x + d.1, y + d.2) : Int × Int) ∈ S <;> simp [h]

theorem nextState_horiz (m : ChunkManager)
    (hm : ∀ a b : Int, m.getCell a b = if (a, b) ∈ horizL then 1 else 0) (x y : Int) :
    nextStateOf m [3] [2, 3] x y = if (x, y) ∈ vertL then 1 else 0 := by
  have hc := countNeighbors_of_indicator m horizL hm x y
  simp only [nextStateOf]
  rw [hc, hm]
  by_cases hbox : -1 ≤ x ∧ x ≤ 3 ∧ -1 ≤ y ∧ y ≤ 1
  · obtain ⟨hx1, hx2, hy1, hy2⟩ := hbox
    interval_cases x <;> interval_cases y <;> decide
  · have hcount : neighborOffsets.countP
        (fun d => decide ((x + d.1, y + d.2) ∈ horizL)) = 0 := by
      rw [List.countP_eq_zero]
      intro d hd
      obtain ⟨b1, b2, b3, b4⟩ := neighborOffsets_bounds d hd
      simp only [horizL, List.mem_cons, List.not_mem_nil, or_false, Prod.mk.injEq,
        decide_eq_true_eq, not_or]
      refine ⟨?_, ?_, ?_⟩ <;> rintro ⟨hA, hB⟩ <;> omega
    have hmemH : ((x, y) : Int × Int) ∉ horizL := by
      simp only [horizL, List.mem_cons, List.not_mem_nil, or_false, Prod.mk.injEq, not_or]
      refine ⟨?_, ?_, ?_⟩ <;> rintro ⟨hA, hB⟩ <;> omega
    have hmemV : ((x, y) : Int × Int) ∉ vertL := by
      simp only [vertL, List.mem_cons, List.not_mem_nil, or_false, Prod.mk.injEq, not_or]
      refine ⟨?_, ?_, ?_⟩ <;> rintro ⟨hA, hB⟩ <;> omega
    rw [if_neg hmemH, hcount, if_neg hmemV]
    decide

theorem nextState_vert (m : ChunkManager)
    (hm : ∀ a b : Int, m.getCell a b = if (a, b) ∈ vertL then 1 else 0) (x y : Int) :
    nextStateOf m [3] [2, 3] x y = if (x, y) ∈ horizL then 1 else 0 := by
  have hc := countNeighbors_of_indicator m vertL hm x y
  simp only [nextStateOf]
  rw [hc, hm]
  by_cases hbox : 0 ≤ x ∧ x ≤ 2 ∧ -2 ≤ y ∧ y ≤ 2
  · obtain ⟨hx1, hx2, hy1, hy2⟩ := hbox
    interval_cases x <;> interval_cases y <;> decide
  · have hcount : neighborOffsets.countP
        (fun d => decide ((x + d.1, y + d.2) ∈ vertL)) = 0 := by
      rw [List.countP_eq_zero]
      intro d hd
      obtain ⟨b1, b2, b3, b4⟩ := neighborOffsets_bounds d hd
      simp only [vertL, List.mem_cons, List.not_mem_nil, or_false, Prod.mk.injEq,
        decide_eq_true_eq, not_or]
      refine ⟨?_, ?_, ?_⟩ <;> rintro ⟨hA, hB⟩ <;> omega
    have hmemV : ((x, y) : Int × Int) ∉ vertL := by
      simp only [vertL, List.mem_cons, List.not_mem_nil, or_false, Prod.mk.injEq, not_or]
      refine ⟨?_, ?_, ?_⟩ <;> rintro ⟨hA, hB⟩ <;> omega
    have hmemH : ((x, y) : Int × Int) ∉ horizL := by
      simp only [horizL, List.mem_cons, List.not_mem_nil, or_false, Prod.mk.injEq, not_or]
      refine ⟨?_, ?_, ?_⟩ <;> rintro ⟨hA, hB⟩ <;> omega
    rw [if_neg hmemV, hcount, if_neg hmemH]
    decide

/-- One `computeNextGen` step on a grid whose transition function is the
indicator of a finite cell list `T`, each member of `T` lying within one
cell of a live source cell: the destination grid is exactly `T` and the
population is `|T|`. -/
theorem computeNextGen_indicator (e : GameOfLife) (hcs : 0 < e.chunkSize)
    (hgs : e.grid.chunkSize = e.chunkSize) (T : List (Int × Int)) (hT : T.Nodup)
    (hnext : ∀ x y : Int, nextStateOf e.grid e.bornRules e.surviveRules x y =
      if (x, y) ∈ T then 1 else 0)
    (hcover : ∀ p ∈ T, ∃ q : Int × Int, e.grid.getCell q.1 q.2 ≠ 0 ∧
      q.1 - 1 ≤ p.1 ∧ p.1 ≤ q.1 + 1 ∧ q.2 - 1 ≤ p.2 ∧ p.2 ≤ q.2 + 1) :
    (∀ x y : Int, (computeNextGen e).grid.getCell x y = if (x, y) ∈ T then 1 else 0) ∧
    (computeNextGen e).population = T.length := by
  have hmemT : ∀ p : Int × Int, p ∈ T →
      (chunkCoord e.chunkSize p.1, chunkCoord e.chunkSize p.2) ∈ chunksToCheck e.grid := by
    intro p hp
    obtain ⟨q, hq, b1, b2, b3, b4⟩ := hcover p hp
    have := near_live_mem_chunksToCheck e.grid (by rw [hgs]; exact hcs)
      q.1 q.2 p.1 p.2 hq b1 b2 b3 b4
    rwa [hgs] at this
  constructor
  · intro x y
    rw [computeNextGen_getCell e hcs x y]
    by_cases hm : ((x, y) : Int × Int) ∈ T
    · rw [if_pos ⟨hmemT (x, y) hm, by rw [hnext x y, if_pos hm]; decide⟩, if_pos hm]
    · rw [if_neg (by
        rintro ⟨-, hns⟩
        rw [hnext x y, if_neg hm] at hns
        exact hns rfl), if_neg hm]
  · rw [computeNextGen_population]
    have hTsub : ∀ p ∈ T, p ∈ evalCells e.chunkSize e.grid := fun p hp =>
      (mem_evalCells e.chunkSize hcs e.grid p).mpr (hmemT p hp)
    have hpred : ∀ p ∈ evalCells e.chunkSize e.grid,
        ((nextStateOf e.grid e.bornRules e.surviveRules p.1 p.2 != 0) = true ↔ p ∈ T) := by
      intro p _
      rw [hnext p.1 p.2]
      by_cases h : ((p.1, p.2) : Int × Int) ∈ T <;> simp [h, Prod.mk.eta]
    have hperm : List.Perm ((evalCells e.chunkSize e.grid).filter
        (fun p => nextStateOf e.grid e.bornRules e.surviveRules p.1 p.2 != 0)) T := by
      rw [List.perm_ext_iff_of_nodup
        (List.Nodup.filter _ (evalCells_nodup e.chunkSize hcs e.grid)) hT]
      intro p
      rw [List.mem_filter]
      constructor
      · rintro ⟨hpL, hpf⟩
        exact (hpred p hpL).mp hpf
      · intro hpT
        exact ⟨hTsub p hpT, (hpred p (hTsub p hpT)).mpr hpT⟩
    rw [List.countP_eq_length_filter]
    exact hperm.length_eq

/-- C9: under the default Conway rule (born = {3}, survive = {2,3}), a
grid containing exactly the horizontal 3-in-a-row blinker becomes
exactly the vertical 3-in-a-column segment with the same centre after
one `advance()` and returns to exactly the horizontal segment after
two; the generation counter rises by one per call and the population is
3 after each call. -/
theorem c9_blinker_oscillator (e : GameOfLife) (hcs : 0 < e.chunkSize)
    (hgs : e.grid.chunkSize = e.chunkSize)
    (hb : e.bornRules = [3]) (hs : e.surviveRules = [2, 3])
    (hgrid : ∀ a b : Int, e.grid.getCell a b = if (a, b) ∈ horizL then 1 else 0) :
    (∀ a b : Int, (computeNextGen e).grid.getCell a b = if (a, b) ∈ vertL then 1 else 0) ∧
    (∀ a b : Int, (computeNextGen (computeNextGen e)).grid.getCell a b =
      if (a, b) ∈ horizL then 1 else 0) ∧
    (computeNextGen e).generation = e.generation + 1 ∧
    (computeNextGen (computeNextGen e)).generation = e.generation + 2 ∧
    (computeNextGen e).population = 3 ∧
    (computeNextGen (computeNextGen e)).population = 3 := by
  have step1 := computeNextGen_indicator e hcs hgs vertL (by decide)
    (by intro x y; rw [hb, hs]; exact nextState_horiz e.grid hgrid x y)
    (by
      intro p hp
      fin_cases hp <;>
        exact ⟨(1, 0), by rw [hgrid]; decide, by decide, by decide, by decide, by decide⟩)
  have hcs1 : 0 < (computeNextGen e).chunkSize := by
    rw [computeNextGen_chunkSize]; exact hcs
  have hgs1 : (computeNextGen e).grid.chunkSize = (computeNextGen e).chunkSize := by
    rw [computeNextGen_grid_chunkSize, computeNextGen_chunkSize]
  have hb1 : (computeNextGen e).bornRules = [3] := by
    rw [computeNextGen_bornRules, hb]
  have hs1 : (computeNextGen e).surviveRules = [2, 3] := by
    rw [computeNextGen_surviveRules, hs]
  have step2 := computeNextGen_indicator (computeNextGen e) hcs1 hgs1 horizL (by decide)
    (by intro x y; rw [hb1, hs1]; exact nextState_vert (computeNextGen e).grid step1.1 x y)
    (by
      intro p hp
      fin_cases hp <;>
        exact ⟨(1, 0), by rw [step1.1]; decide, by decide, by decide, by decide, by decide⟩)
  refine ⟨step1.1, step2.1, computeNextGen_generation e, ?_, ?_, ?_⟩
  · rw [computeNextGen_generation, computeNextGen_generation]
  · rw [step1.2]; rfl
  · rw [step2.2]; rfl

/-- C9 witness: the theorem at the concrete blinker grid of chunk size
32 with the Conway rule. -/
theorem c9_blinker_oscillator_witness :
    0 < (32 : Nat) ∧
    (∀ a b : Int,
      (computeNextGen ⟨32, blinkerH 32, [3], [2, 3], 0, 0⟩).grid.getCell a b =
        if (a, b) ∈ vertL then 1 else 0) ∧
    (∀ a b : Int,
      (computeNextGen (computeNextGen ⟨32, blinkerH 32, [3], [2, 3], 0, 0⟩)).grid.getCell a b =
        if (a, b) ∈ horizL then 1 else 0) ∧
    (computeNextGen ⟨32, blinkerH 32, [3], [2, 3], 0, 0⟩).generation = 1 ∧
    (computeNextGen (computeNextGen ⟨32, blinkerH 32, [3], [2, 3], 0, 0⟩)).generation = 2 ∧
    (computeNextGen ⟨32, blinkerH 32, [3], [2, 3], 0, 0⟩).population = 3 ∧
    (computeNextGen (computeNextGen ⟨32, blinkerH 32, [3], [2, 3], 0, 0⟩)).population = 3 := by
  have h := c9_blinker_oscillator ⟨32, blinkerH 32, [3], [2, 3], 0, 0⟩
    (by decide) rfl rfl rfl (getCell_blinkerH 32 (by decide))
  exact ⟨by decide, h.1, h.2.1, h.2.2.1, h.2.2.2.1, h.2.2.2.2.1, h.2.2.2.2.2⟩
